import Mathlib

/-!
# Verification of the PageMind ingestion / retrieval pipeline

A shallow embedding of `src/server/index.js` (the ingestion and retrieval
orchestration pipeline of the PageMind RAG system), together with proofs of
the specification's claims about it.

Modelling conventions:
* JavaScript strings are modelled as `List Char` (a JS string is a sequence
  of code units; none of the verified code depends on UTF-16 surrogate
  details).
* A JS value that may be `null`/`undefined` is modelled as an `Option`.
* Exceptions are modelled with `Except JsError`.
* Embedding vectors are opaque payloads; we model them as `List Int`
  (nothing in the verified code computes with the vector entries).
-/

namespace PageMind

/-- Errors thrown by the modelled code: the explicit
`"Number of chunks must be greater than zero"` throw in `splitIntoChunks`,
a JS `TypeError` (calling a method on `undefined`/`null`), and failures of
the external collaborators (axios fetch, OpenAI embedding, Chroma store). -/
inductive JsError where
  | invalidArgument : JsError
  | typeError : JsError
  | fetchFailed : JsError
  | embeddingFailed : JsError
  | storeFailed : JsError
deriving DecidableEq, Repr

/-- `Math.ceil(a / b)` for natural `a` and positive natural `b`:
`(a + b - 1) / b` in natural-number division. -/
def natCeilDiv (a b : Nat) : Nat := (a + b - 1) / b

/-- Recursion core of the chunking loop; `fuel` bounds the number of
iterations so that the recursion is structural (and hence reduces inside
the kernel).  Each iteration consumes at least one character, so
`fuel = text.length` always suffices; see `chunksOf`. -/
def chunksOfAux : Nat → Nat → List Char → List (List Char)
  | 0, _, _ => []
  | _ + 1, _, [] => []
  | fuel + 1, size, c :: rest => ((c :: rest).take size) :: chunksOfAux fuel size (rest.drop (size - 1))

/-- The chunking loop of `splitIntoChunks` (src/server/index.js:95-97):
`for (let i = 0; i < text.length; i += chunkSize) chunks.push(text.slice(i, i + chunkSize))`.
Expressed structurally: the chunk at offset `i` is `(text.drop i).take size` and
advancing `i` by `size` is dropping `size` characters, so the loop is
`t.take size :: chunksOf size (t.drop size)` on the remaining text `t`
(see `chunksOf_cons_of_pos`).  For a non-empty cons cell,
`(c :: rest).drop size = rest.drop (size - 1)` whenever `size ≥ 1`; every
call site has `size ≥ 1` (the JS loop would not terminate at `size = 0`,
which `chunkSize = Math.ceil` of a non-empty text rules out). -/
def chunksOf (size : Nat) (t : List Char) : List (List Char) :=
  chunksOfAux t.length size t

/-- `splitIntoChunks(text, numChunks)` (src/server/index.js:88-101).
Throws when `numChunks <= 0`; otherwise computes
`chunkSize = Math.ceil(text.length / numChunks)` and slices the text into
successive pieces of that length. -/
def splitIntoChunks (text : List Char) (numChunks : Int) : Except JsError (List (List Char)) :=
  if numChunks ≤ 0 then .error .invalidArgument
  else
    let chunkSize := natCeilDiv text.length numChunks.toNat
    .ok (chunksOf chunkSize text)

/-! ## Identity scheme

`src/server/index.js:108`: ``const uniqueId = `${url}_chunk_${chunkIndex}`;``
The template literal renders the chunk index (a non-negative JS integer at
every call site: the loop counter `i`, default `0`) in decimal. -/

/-- Decimal digit character, used to model JS number-to-string conversion. -/
def digitToChar : Nat → Char
  | 0 => '0'
  | 1 => '1'
  | 2 => '2'
  | 3 => '3'
  | 4 => '4'
  | 5 => '5'
  | 6 => '6'
  | 7 => '7'
  | 8 => '8'
  | 9 => '9'
  | _ => '?'

/-- Inverse of `digitToChar` on actual digits. -/
def charToDigit (c : Char) : Nat := c.toNat - 48

/-- The decimal rendering of a non-negative integer, as a JS template
literal produces it: most-significant digit first, `0 ↦ "0"`. -/
def natDecimal (n : Nat) : List Char :=
  if n = 0 then ['0']
  else ((Nat.digits 10 n).map digitToChar).reverse

/-- The literal `"_chunk_"` infix of the identifier template. -/
def chunkSep : List Char := ('_' :: 'c' :: 'h' :: 'u' :: 'n' :: 'k' :: '_' :: [])

/-- ``const uniqueId = `${url}_chunk_${chunkIndex}`;``
(src/server/index.js:108).  A pure function of `(url, chunkIndex)`, hence
deterministic. -/
def uniqueId (url : List Char) (chunkIndex : Nat) : List Char :=
  url ++ chunkSep ++ natDecimal chunkIndex

/-- Decimal digit test on characters (code points 48-57). -/
def isDig (c : Char) : Bool := decide (48 ≤ c.toNat ∧ c.toNat ≤ 57)

/-! ## Vector store and ingestion orchestrator -/

/-- One persisted record of the Chroma collection: id, embedding vector
and the metadata object `{url, body, head, chunkIndex}` passed to
`collection.add` (src/server/index.js:119-131).  `head` may be `null`
(cheerio's `$("head").html()` returns `null` when the element is absent). -/
structure IndexedRecord where
  id : List Char
  embedding : List Int
  url : List Char
  body : List Char
  head : Option (List Char)
  chunkIndex : Nat
deriving DecidableEq, Repr

/-- The collection's contents, in insertion order: `collection.add`
appends and `collection.get()` without ids returns every record. -/
abbrev Store := List IndexedRecord

/-- Result of `scrapeWebpage` (src/server/index.js:16-44).  `metaData` and
`body` are `$("head").html()` / `$("body").html()`, which are `null` when
the element is missing. -/
structure ScrapeResult where
  metaData : Option (List Char)
  body : Option (List Char)
  internalLinks : List (List Char)
  externalLinks : List (List Char)
deriving DecidableEq, Repr

/-- One behaviour of the external collaborators: what the axios fetch
returns (or throws) per url, what the OpenAI embedding call returns (or
throws) per text, and whether the Chroma collection operations
(`getOrCreateCollection`/`get`, `add`, `delete`) throw. -/
structure Collab where
  scrape : List Char → Except JsError ScrapeResult
  embed : List Char → Except JsError (List Int)
  storeGetErr : Option JsError
  storeAddErr : Option JsError
  storeDeleteErr : Option JsError

/-- Events in order of the awaited side effects of `ingest`, mirroring its
`console.log` reporting: the purge call, the fetch attempt, the empty-body
early return, each upsert attempt, and the final success / caught-error
log line. -/
inductive Event where
  | purge (url : List Char)
  | fetch (url : List Char)
  | emptyBody (url : List Char)
  | upsert (id : List Char)
  | success (url : List Char)
  | errorLog
deriving DecidableEq, Repr

/-- `addToVectorDB({embedding, url, body, head}, chunkIndex)`
(src/server/index.js:103-133) acting on an explicit store state: compute
`uniqueId`, `collection.get({ids: [uniqueId]})`, skip when a record with
that id exists, otherwise `collection.add` one record.  The returned
`Bool` reports whether `add` executed (the code logs "✅ Added" then, and
"🟡 ... already exists, skipping" otherwise).  A throwing
`getOrCreateCollection`/`get` (resp. `add`) is modelled by
`c.storeGetErr` (resp. `c.storeAddErr`); a thrown error carries the store
state at the throw point. -/
def addToVectorDB (c : Collab) (store : Store) (embedding : List Int)
    (url : List Char) (body : List Char) (head : Option (List Char))
    (chunkIndex : Nat) : Except (JsError × Store) (Store × Bool) :=
  match c.storeGetErr with
  | some e => .error (e, store)
  | none =>
    let uid := uniqueId url chunkIndex
    let existing := store.filter (fun r => r.id = uid)
    if existing.length > 0 then .ok (store, false)
    else
      match c.storeAddErr with
      | some e => .error (e, store)
      | none =>
        .ok (store ++ [{ id := uid, embedding := embedding, url := url,
                         body := body, head := head, chunkIndex := chunkIndex }], true)

/-- `deleteEmbeddingsForUrl(url)` (src/server/index.js:143-153):
`collection.get()` over all records, keep the ids with
`id.startsWith(url)`, and `collection.delete({ids: idsToDelete})` when
that list is non-empty. -/
def deleteEmbeddingsForUrl (c : Collab) (store : Store) (url : List Char) :
    Except (JsError × Store) Store :=
  match c.storeGetErr with
  | some e => .error (e, store)
  | none =>
    let idsToDelete := (store.map (fun r => r.id)).filter (fun i => url.isPrefixOf i)
    if idsToDelete.length > 0 then
      match c.storeDeleteErr with
      | some e => .error (e, store)
      | none => .ok (store.filter (fun r => !(idsToDelete.contains r.id)))
    else .ok store

/-- The per-chunk loop of `ingest` (src/server/index.js:70-80): for each
chunk in index order, obtain its embedding and call `addToVectorDB`.  A
thrown error carries the store state and event trace at the throw point. -/
def ingestChunks (c : Collab) (url : List Char) (head : Option (List Char)) :
    Store → List Event → List (List Char) → Nat →
    Except (JsError × Store × List Event) (Store × List Event)
  | store, ev, [], _ => .ok (store, ev)
  | store, ev, chunk :: rest, i =>
    match c.embed chunk with
    | .error e => .error (e, store, ev)
    | .ok emb =>
      match addToVectorDB c store emb url chunk head i with
      | .error (e, s) => .error (e, s, ev)
      | .ok (s, _) =>
        ingestChunks c url head s (ev ++ [Event.upsert (uniqueId url i)]) rest (i + 1)

/-- The `try` block of `ingest(url)` (src/server/index.js:57-83): await
the purge, await the fetch, return early on an empty/absent body, split
the body into 100 chunks, then embed and upsert each chunk.  Errors carry
the store and event trace at the throw point. -/
def ingestBody (c : Collab) (store : Store) (url : List Char) :
    Except (JsError × Store × List Event) (Store × List Event) :=
  match deleteEmbeddingsForUrl c store url with
  | .error (e, s) => .error (e, s, [])
  | .ok store₁ =>
    match c.scrape url with
    | .error e => .error (e, store₁, [Event.purge url, Event.fetch url])
    | .ok sr =>
      let ev₂ := [Event.purge url, Event.fetch url]
      if sr.body = none ∨ sr.body = some [] then
        .ok (store₁, ev₂ ++ [Event.emptyBody url])
      else
        match splitIntoChunks (sr.body.getD []) 100 with
        | .error e => .error (e, store₁, ev₂)
        | .ok chunks => ingestChunks c url sr.metaData store₁ ev₂ chunks 0

/-- `ingest(url)` (src/server/index.js:56-86).  The whole body is wrapped
in `try ... catch (error) { console.error(...) }`: a thrown error is
caught at this boundary and the call returns normally.  The result is
`.ok` of the final store and event trace; the `JsError` on the left of
the result type is what an *uncaught* exception would be, so `.ok`-ness
of every result is exactly "never raises past its own boundary". -/
def ingest (c : Collab) (store : Store) (url : List Char) :
    Except JsError (Store × List Event) :=
  match ingestBody c store url with
  | .ok (s, ev) => .ok (s, ev ++ [Event.success url])
  | .error (_, s, ev) => .ok (s, ev ++ [Event.errorLog])

/-! ## Retrieval orchestrator (`chat`) -/

/-- One metadata object returned by `collection.query`
(src/server/index.js:161-164): its `body` and `url` fields, each possibly
`null`/`undefined` (e.g. on a record stored without them). -/
structure QueryMeta where
  body : Option (List Char)
  url : Option (List Char)
deriving DecidableEq, Repr

/-- Whitespace test backing `String.prototype.trim`. -/
def isJsSpace (c : Char) : Bool := c.isWhitespace

/-- `e.trim()`: remove leading and trailing whitespace. -/
def jsTrim (s : List Char) : List Char :=
  ((s.dropWhile isJsSpace).reverse.dropWhile isJsSpace).reverse

/-- `list.filter(e => e.trim() !== '' && !!e)` (src/server/index.js:167,169)
under JS evaluation order: the predicate calls `.trim()` on the element
*before* the `!!e` existence check, so the first `null`/`undefined`
element throws a `TypeError`; a string element is kept when its trimmed
form is non-empty (and it is truthy). -/
def chatFilter : List (Option (List Char)) → Except JsError (List (List Char))
  | [] => .ok []
  | none :: _ => .error .typeError
  | some s :: rest =>
    match chatFilter rest with
    | .error err => .error err
    | .ok kept =>
      .ok (if jsTrim s ≠ [] ∧ s ≠ [] then s :: kept else kept)

/-- The context-extraction statements of `chat(question)`
(src/server/index.js:167-169):
`const body = collectionResult.metadatas[0].map(e => e.body).filter(e => e.trim() !== '' && !!e);`
`const url  = collectionResult.metadatas[0].map(e => e.url).filter(e => e.trim() !== '' && !!e);`
The `body` statement completes (or throws) before the `url` statement
starts. -/
def chatContext (metas : List QueryMeta) :
    Except JsError (List (List Char) × List (List Char)) :=
  match chatFilter (metas.map (fun e => e.body)) with
  | .error err => .error err
  | .ok body =>
    match chatFilter (metas.map (fun e => e.url)) with
    | .error err => .error err
    | .ok url => .ok (body, url)

/-- `xs.join(', ')` as used to place the url and body lists in the
composed user message (src/server/index.js:177-179). -/
def joinComma (xs : List (List Char)) : List Char :=
  (xs.intersperse ((", ").toList)).flatten

/-- Modelled from the spec (§4.5 steps 3-4), for comparison with the code:
"filter out records whose `body` is empty or whitespace-only" and place in
the user message the urls "of the retained records" — i.e. the url list
keyed on the *body* condition of the same record. -/
def chatUrlsSpec (metas : List (List Char × List Char)) : List (List Char) :=
  (metas.filter (fun m => jsTrim m.1 ≠ [])).map (fun m => m.2)

/-! ## Demo inputs used by the concrete witnesses -/

/-- A concrete url. -/
def demoUrl : List Char := ("http://a").toList

/-- A concrete record as the modelled `collection.add` would store it for
chunk 0 of `demoUrl`. -/
def demoRec : IndexedRecord :=
  { id := uniqueId demoUrl 0, embedding := [1], url := demoUrl,
    body := ("b").toList, head := none, chunkIndex := 0 }

/-- A concrete record belonging to an unrelated url. -/
def demoRecOther : IndexedRecord :=
  { id := uniqueId (("http://z").toList) 0, embedding := [2],
    url := ("http://z").toList, body := ("c").toList, head := none, chunkIndex := 0 }

/-- A concrete collaborator behaviour: the fetch and the embedding call
throw, the store operations succeed. -/
def demoCollab : Collab :=
  { scrape := fun _ => .error .fetchFailed,
    embed := fun _ => .error .embeddingFailed,
    storeGetErr := none, storeAddErr := none, storeDeleteErr := none }

/-- The fuel argument is irrelevant as long as it covers the text length. -/
theorem chunksOfAux_fuel {size : Nat} :
    ∀ fuel₁ fuel₂ (t : List Char), t.length ≤ fuel₁ → t.length ≤ fuel₂ →
      chunksOfAux fuel₁ size t = chunksOfAux fuel₂ size t := by
  intro fuel₁
  induction fuel₁ with
  | zero =>
    intro fuel₂ t h₁ _
    have ht : t = [] := List.eq_nil_of_length_eq_zero (by omega)
    subst ht
    cases fuel₂ <;> rfl
  | succ f₁ ih =>
    intro fuel₂ t h₁ h₂
    cases t with
    | nil => cases fuel₂ <;> rfl
    | cons c rest =>
      cases fuel₂ with
      | zero => simp at h₂
      | succ f₂ =>
        simp only [chunksOfAux]
        congr 1
        apply ih
        · simp only [List.length_drop] at *
          simp at h₁
          omega
        · simp only [List.length_drop] at *
          simp at h₂
          omega

/-- For non-empty text and a positive chunk count the computed slice length
is positive. -/
theorem natCeilDiv_pos {len cnt : Nat} (hlen : 0 < len) (hcnt : 0 < cnt) :
    0 < natCeilDiv len cnt := by
  unfold natCeilDiv
  exact Nat.div_pos (by omega) hcnt

theorem chunksOf_nil (size : Nat) : chunksOf size [] = [] := rfl

theorem chunksOf_cons (size : Nat) (c : Char) (rest : List Char) :
    chunksOf size (c :: rest) =
      ((c :: rest).take size) :: chunksOf size (rest.drop (size - 1)) := by
  show chunksOfAux (rest.length + 1) size (c :: rest) = _
  simp only [chunksOfAux]
  unfold chunksOf
  congr 1
  apply chunksOfAux_fuel
  · simp only [List.length_drop]
    omega
  · exact Nat.le_refl _

/-- For positive `size`, one unfolding step of the loop: emit the first
`size` characters and recurse on the rest. -/
theorem chunksOf_cons_of_pos {size : Nat} (hsize : 0 < size) (c : Char) (rest : List Char) :
    chunksOf size (c :: rest) =
      ((c :: rest).take size) :: chunksOf size ((c :: rest).drop size) := by
  rw [chunksOf_cons]
  congr 2
  cases size with
  | zero => omega
  | succ n => simp

/-- Concatenating the chunks gives back the text (for positive slice length). -/
theorem chunksOf_flatten {size : Nat} (hsize : 0 < size) :
    ∀ text : List Char, (chunksOf size text).flatten = text := by
  have H : ∀ n (t : List Char), t.length = n → (chunksOf size t).flatten = t := by
    intro n
    induction n using Nat.strong_induction_on with
    | _ n ih =>
      intro t hlen
      cases t with
      | nil => simp [chunksOf_nil]
      | cons c rest =>
        rw [chunksOf_cons_of_pos hsize, List.flatten_cons]
        have hdroplen : ((c :: rest).drop size).length < n := by
          simp only [List.length_drop, List.length_cons] at hlen ⊢
          omega
        rw [ih _ hdroplen _ rfl]
        exact List.take_append_drop size (c :: rest)
  intro text
  exact H text.length text rfl

/-- `k < ⌈len / size⌉` says exactly that offset `k * size` is still inside
the text, i.e. that the loop body runs a `k`-th time. -/
theorem natCeilDiv_lt_iff {size : Nat} (hsize : 0 < size) (len k : Nat) :
    k < natCeilDiv len size ↔ k * size < len := by
  unfold natCeilDiv
  rw [Nat.lt_iff_add_one_le, Nat.le_div_iff_mul_le hsize]
  have hmul : (k + 1) * size = k * size + size := by ring
  rw [hmul]
  rcases Nat.eq_zero_or_pos len with hlen | hlen
  · subst hlen
    omega
  · omega

/-- Closed form of the chunking loop: chunk `k` is the slice
`text.slice(k*size, k*size + size)` and there are `⌈len/size⌉` chunks. -/
theorem chunksOf_eq_map {size : Nat} (hsize : 0 < size) :
    ∀ t : List Char,
      chunksOf size t =
        (List.range (natCeilDiv t.length size)).map
          (fun k => (t.drop (k * size)).take size) := by
  have H : ∀ n (t : List Char), t.length = n →
      chunksOf size t =
        (List.range (natCeilDiv t.length size)).map
          (fun k => (t.drop (k * size)).take size) := by
    intro n
    induction n using Nat.strong_induction_on with
    | _ n ih =>
      intro t hlen
      cases t with
      | nil =>
        have : natCeilDiv 0 size = 0 := by
          unfold natCeilDiv
          exact Nat.div_eq_of_lt (by omega)
        simp [chunksOf_nil, this]
      | cons c rest =>
        set t := c :: rest with ht
        have htpos : 0 < t.length := by simp [ht]
        have hm : natCeilDiv t.length size = natCeilDiv (t.drop size).length size + 1 := by
          unfold natCeilDiv
          rw [List.length_drop]
          rcases le_or_lt t.length size with hle | hlt
          · have h1 : t.length - size = 0 := by omega
            rw [h1]
            have h2 : (0 + size - 1) / size = 0 := Nat.div_eq_of_lt (by omega)
            have h3 : (t.length + size - 1) / size = 1 :=
              Nat.div_eq_of_lt_le (by omega) (by omega)
            omega
          · have h1 : t.length + size - 1 = (t.length - size + size - 1) + size := by omega
            rw [h1, Nat.add_div_right _ hsize]
        have hdroplen : (t.drop size).length < n := by
          simp only [List.length_drop]
          omega
        rw [chunksOf_cons_of_pos hsize, ← ht, ih _ hdroplen _ rfl, hm,
          List.range_succ_eq_map, List.map_cons, List.map_map]
        congr 1
        · simp
        · apply List.map_congr_left
          intro k _
          simp only [Function.comp_apply, List.drop_drop]
          congr 2
          rw [Nat.succ_mul]
          omega
  intro t
  exact H t.length t rfl

/-- The loop produces `⌈len / size⌉` chunks. -/
theorem chunksOf_length {size : Nat} (hsize : 0 < size) (t : List Char) :
    (chunksOf size t).length = natCeilDiv t.length size := by
  rw [chunksOf_eq_map hsize]
  simp

/-- Every chunk the loop produces is a non-empty string: the loop guard
`i < text.length` means every slice starts strictly inside the text. -/
theorem chunksOf_ne_nil {size : Nat} (hsize : 0 < size) (t : List Char) :
    ∀ c ∈ chunksOf size t, c ≠ [] := by
  intro c hc
  rw [chunksOf_eq_map hsize] at hc
  obtain ⟨k, hk, rfl⟩ := List.mem_map.mp hc
  rw [List.mem_range, natCeilDiv_lt_iff hsize] at hk
  apply List.ne_nil_of_length_pos
  rw [List.length_take, List.length_drop]
  omega

/-- With slice length 1, every chunk is a single character. -/
theorem chunksOf_one_length (t : List Char) :
    ∀ c ∈ chunksOf 1 t, c.length = 1 := by
  intro c hc
  rw [chunksOf_eq_map Nat.one_pos] at hc
  obtain ⟨k, hk, rfl⟩ := List.mem_map.mp hc
  rw [List.mem_range, natCeilDiv_lt_iff Nat.one_pos] at hk
  rw [List.length_take, List.length_drop]
  omega

theorem charToDigit_digitToChar {d : Nat} (h : d < 10) :
    charToDigit (digitToChar d) = d := by
  interval_cases d <;> decide

theorem isDig_digitToChar {d : Nat} (h : d < 10) :
    isDig (digitToChar d) = true := by
  interval_cases d <;> decide

/-- Reading the decimal rendering back gives the original number. -/
theorem natDecimal_decode (n : Nat) :
    Nat.ofDigits 10 ((natDecimal n).reverse.map charToDigit) = n := by
  unfold natDecimal
  split
  · subst n
    simp [charToDigit, Nat.ofDigits]
  · rw [List.reverse_reverse, List.map_map]
    have hmap : (Nat.digits 10 n).map (charToDigit ∘ digitToChar) = Nat.digits 10 n := by
      conv_rhs => rw [← List.map_id (Nat.digits 10 n)]
      apply List.map_congr_left
      intro d hd
      exact charToDigit_digitToChar (Nat.digits_lt_base (by norm_num) hd)
    rw [hmap, Nat.ofDigits_digits]

theorem natDecimal_injective : Function.Injective natDecimal := by
  intro a b h
  have ha := natDecimal_decode a
  rw [h, natDecimal_decode b] at ha
  exact ha.symm

/-- Every character of a decimal rendering is a digit. -/
theorem natDecimal_isDig (n : Nat) : ∀ c ∈ natDecimal n, isDig c = true := by
  unfold natDecimal
  split
  · intro c hc
    simp only [List.mem_singleton] at hc
    subst hc
    decide
  · intro c hc
    rw [List.mem_reverse, List.mem_map] at hc
    obtain ⟨d, hd, rfl⟩ := hc
    exact isDig_digitToChar (Nat.digits_lt_base (by norm_num) hd)

/-- Any tail of the `"_chunk_"` separator still contains an underscore. -/
theorem underscore_mem_chunkSep_drop : ∀ k, k < 7 → '_' ∈ chunkSep.drop k := by
  decide

/-- The digit tail of an identifier cannot be strictly shorter than the
digit tail of an equal identifier: otherwise a `_` of the separator would
land among the digits. -/
theorem uniqueId_len_not_lt {u₁ u₂ : List Char} {n₁ n₂ : Nat}
    (h : uniqueId u₁ n₁ = uniqueId u₂ n₂) :
    ¬ (natDecimal n₁).length < (natDecimal n₂).length := by
  intro hlt
  have h₁ : chunkSep ++ natDecimal n₁ <:+ uniqueId u₂ n₂ := by
    rw [← h]
    exact ⟨u₁, (List.append_assoc u₁ chunkSep (natDecimal n₁)).symm⟩
  have h₂ : natDecimal n₂ <:+ uniqueId u₂ n₂ := ⟨u₂ ++ chunkSep, rfl⟩
  rcases List.suffix_or_suffix_of_suffix h₁ h₂ with hcase | hcase
  · have hmem : '_' ∈ natDecimal n₂ :=
      hcase.subset (List.mem_append_left _ (by decide))
    exact absurd (natDecimal_isDig n₂ '_' hmem) (by decide)
  · obtain ⟨t, ht⟩ := hcase
    have hlen : t.length + (natDecimal n₂).length = 7 + (natDecimal n₁).length := by
      have hl := congrArg List.length ht
      simp [chunkSep] at hl
      omega
    have htlen : t.length < 7 := by omega
    have hd₂ : natDecimal n₂ = chunkSep.drop t.length ++ natDecimal n₁ := by
      have hdrop : (t ++ natDecimal n₂).drop t.length = natDecimal n₂ :=
        List.drop_left t (natDecimal n₂)
      rw [← hdrop, ht, List.drop_append_of_le_length (by simp [chunkSep]; omega)]
    have hmem : '_' ∈ natDecimal n₂ := by
      rw [hd₂]
      exact List.mem_append_left _ (underscore_mem_chunkSep_drop t.length htlen)
    exact absurd (natDecimal_isDig n₂ '_' hmem) (by decide)

/-- The identity scheme is injective: equal identifiers come from the same
`(url, chunkIndex)` pair. -/
theorem uniqueId_inj {u₁ u₂ : List Char} {n₁ n₂ : Nat}
    (h : uniqueId u₁ n₁ = uniqueId u₂ n₂) : u₁ = u₂ ∧ n₁ = n₂ := by
  have hle₁ := uniqueId_len_not_lt h
  have hle₂ := uniqueId_len_not_lt h.symm
  have hlen : (natDecimal n₁).length = (natDecimal n₂).length := by omega
  unfold uniqueId at h
  obtain ⟨h1, h2⟩ := List.append_inj' h hlen
  have hu : u₁ = u₂ := by
    have hl := congrArg List.length h1
    simp only [List.length_append] at hl
    exact (List.append_inj h1 (by omega)).1
  exact ⟨hu, natDecimal_injective h2⟩

/-! ## Claims about the chunker -/

/-- C1: for every string `text` and every integer `count > 0`, the chunk
sequence returned by `splitIntoChunks(text, count)` concatenates, in
order, to `text` exactly: no character is lost or duplicated and no two
chunks overlap. -/
theorem claim_C1_chunk_concat (text : List Char) (count : Int) (hcount : 0 < count) :
    ∃ cs, splitIntoChunks text count = .ok cs ∧ cs.flatten = text := by
  unfold splitIntoChunks
  rw [if_neg (by omega)]
  refine ⟨_, rfl, ?_⟩
  cases text with
  | nil => simp [chunksOf_nil]
  | cons c rest =>
    exact chunksOf_flatten (natCeilDiv_pos (by simp) (by omega)) _

theorem claim_C1_witness :
    ∃ cs, splitIntoChunks ("Hello!").toList 100 = .ok cs ∧
      cs.flatten = ("Hello!").toList :=
  claim_C1_chunk_concat (("Hello!").toList) 100 (by decide)

/-- C3: for non-empty `text` and `count > 0`, `splitIntoChunks` produces
successive non-overlapping slices of length `size = ⌈len/count⌉` at
offsets `0, size, 2·size, …` until the text is exhausted, so the number of
chunks is `⌈len/size⌉`; and concretely, a length-5 text with `count = 100`
gives `size = 1` and exactly 5 one-character chunks. -/
theorem claim_C3_chunk_layout (text : List Char) (count : Int) (hcount : 0 < count)
    (hne : text ≠ []) :
    ∃ cs, splitIntoChunks text count = .ok cs ∧
      (cs.length = natCeilDiv text.length (natCeilDiv text.length count.toNat) ∧
       ∀ k, cs[k]? =
         if k * natCeilDiv text.length count.toNat < text.length
         then some ((text.drop (k * natCeilDiv text.length count.toNat)).take
                    (natCeilDiv text.length count.toNat))
         else none) ∧
      splitIntoChunks ("Hello").toList 100 = .ok [['H'], ['e'], ['l'], ['l'], ['o']] := by
  have hlen : 0 < text.length := by
    cases text with
    | nil => exact absurd rfl hne
    | cons c rest => simp
  have hsize : 0 < natCeilDiv text.length count.toNat :=
    natCeilDiv_pos hlen (by omega)
  unfold splitIntoChunks
  rw [if_neg (by omega)]
  refine ⟨_, rfl, ⟨chunksOf_length hsize text, ?_⟩, by rfl⟩
  intro k
  rw [chunksOf_eq_map hsize]
  simp only [List.getElem?_map]
  split
  · rename_i hk
    rw [List.getElem?_range ((natCeilDiv_lt_iff hsize _ _).mpr hk)]
    rfl
  · rename_i hk
    rw [List.getElem?_eq_none]
    · rfl
    · rw [List.length_range]
      by_contra hcon
      rw [Nat.not_le] at hcon
      exact absurd ((natCeilDiv_lt_iff hsize _ _).mp hcon) (by omega)

theorem claim_C3_witness :
    ∃ cs, splitIntoChunks ("Hello").toList 100 = .ok cs ∧
      (cs.length =
        natCeilDiv ("Hello").toList.length
          (natCeilDiv ("Hello").toList.length (100 : Int).toNat) ∧
       ∀ k, cs[k]? =
         if k * natCeilDiv ("Hello").toList.length (100 : Int).toNat <
              ("Hello").toList.length
         then some ((("Hello").toList.drop
                      (k * natCeilDiv ("Hello").toList.length (100 : Int).toNat)).take
                    (natCeilDiv ("Hello").toList.length (100 : Int).toNat))
         else none) ∧
      splitIntoChunks ("Hello").toList 100 = .ok [['H'], ['e'], ['l'], ['l'], ['o']] :=
  claim_C3_chunk_layout (("Hello").toList) 100 (by decide) (by decide)

/-- C8 as stated is false at a concrete input: for body `"Hello"`
(length 5) and chunk count `100` the body is shorter than the count, yet
the chunk sequence is five one-character chunks — it does not end with
trailing empty chunks (its last chunk is `"o"`, non-empty; indeed no chunk
is empty). -/
theorem claim_C8_counterexample :
    ("Hello").toList.length < 100 ∧
    splitIntoChunks ("Hello").toList 100 = .ok [['H'], ['e'], ['l'], ['l'], ['o']] ∧
    [['H'], ['e'], ['l'], ['l'], ['o']].getLast? = some ['o'] ∧
    (['o'] : List Char) ≠ [] :=
  ⟨by decide, by rfl, by rfl, by decide⟩

/-- C8 amended: a chunk's text is never empty, whatever the body and the
(positive) chunk count; when the body is shorter than the chunk count the
chunks are single characters (`size = 1`), not trailing empty strings. -/
theorem claim_C8_amended (text : List Char) (count : Int) (hcount : 0 < count)
    (cs : List (List Char)) (hcs : splitIntoChunks text count = .ok cs) :
    (∀ c ∈ cs, c ≠ []) ∧
    (text.length < count.toNat → ∀ c ∈ cs, c.length = 1) := by
  unfold splitIntoChunks at hcs
  rw [if_neg (by omega)] at hcs
  injection hcs with hcs
  subst hcs
  cases text with
  | nil =>
    rw [chunksOf_nil]
    exact ⟨(by intro c hc; cases hc), (by intro _ c hc; cases hc)⟩
  | cons a rest =>
    have hlen : 0 < (a :: rest).length := by simp
    have hsize : 0 < natCeilDiv (a :: rest).length count.toNat :=
      natCeilDiv_pos hlen (by omega)
    refine ⟨chunksOf_ne_nil hsize _, ?_⟩
    intro hshort
    have hone : natCeilDiv (a :: rest).length count.toNat = 1 :=
      Nat.div_eq_of_lt_le (by omega) (by omega)
    rw [hone]
    exact chunksOf_one_length _

theorem claim_C8_witness :
    (∀ c ∈ [['H'], ['e'], ['l'], ['l'], ['o']], c ≠ []) ∧
    (("Hello").toList.length < (100 : Int).toNat →
      ∀ c ∈ [['H'], ['e'], ['l'], ['l'], ['o']], c.length = 1) :=
  claim_C8_amended (("Hello").toList) 100 (by decide) _ (by rfl)

/-! ## Claims about the identity scheme -/

/-- C7: the identity scheme renders `(sourceUrl, chunkIndex)` as the
string `"<url>_chunk_<index>"`; being a pure function it is deterministic;
it is injective (over all url strings and non-negative indices, hence in
particular over the valid-URL pairs the system uses); and every identifier
produced for a given url has that url as a literal string prefix. -/
theorem claim_C7_identity :
    (chunkSep = ("_chunk_").toList ∧
     ∀ u n, uniqueId u n = u ++ (chunkSep ++ natDecimal n)) ∧
    (∀ u₁ n₁ u₂ n₂, uniqueId u₁ n₁ = uniqueId u₂ n₂ → u₁ = u₂ ∧ n₁ = n₂) ∧
    (∀ u n, ∃ rest, uniqueId u n = u ++ rest) := by
  refine ⟨⟨by decide, ?_⟩, ?_, ?_⟩
  · intro u n
    exact List.append_assoc _ _ _
  · intro u₁ n₁ u₂ n₂ h
    exact uniqueId_inj h
  · intro u n
    exact ⟨chunkSep ++ natDecimal n, List.append_assoc _ _ _⟩

theorem claim_C7_witness : demoUrl = demoUrl ∧ (3 : Nat) = 3 :=
  claim_C7_identity.2.1 demoUrl 3 demoUrl 3 rfl

/-! ## Claims about the store upsert -/

/-- C2: when the store operations do not themselves throw, a second upsert
attempt for an identifier already present performs no write — the store is
returned unchanged (every record byte-identical) and the operation reports
`inserted = false`; when the identifier is absent, exactly one record with
that id, the given embedding and metadata `{url, body, head, chunkIndex}`
is appended and the operation reports `inserted = true`. -/
theorem claim_C2_upsert_dedup (c : Collab) (store : Store) (embedding : List Int)
    (url body : List Char) (head : Option (List Char)) (chunkIndex : Nat)
    (hget : c.storeGetErr = none) (hadd : c.storeAddErr = none) :
    ((∃ r ∈ store, r.id = uniqueId url chunkIndex) →
      addToVectorDB c store embedding url body head chunkIndex = .ok (store, false)) ∧
    ((¬ ∃ r ∈ store, r.id = uniqueId url chunkIndex) →
      addToVectorDB c store embedding url body head chunkIndex =
        .ok (store ++ [({ id := uniqueId url chunkIndex, embedding := embedding,
                          url := url, body := body, head := head,
                          chunkIndex := chunkIndex } : IndexedRecord)], true) ∧
      ((store ++ [({ id := uniqueId url chunkIndex, embedding := embedding,
                     url := url, body := body, head := head,
                     chunkIndex := chunkIndex } : IndexedRecord)]).filter
          (fun r => r.id = uniqueId url chunkIndex)).length = 1) := by
  constructor
  · rintro ⟨r, hr, hid⟩
    have hmem : r ∈ store.filter (fun r => r.id = uniqueId url chunkIndex) :=
      List.mem_filter.mpr ⟨hr, by simp [hid]⟩
    have hpos : 0 < (store.filter (fun r => r.id = uniqueId url chunkIndex)).length :=
      List.length_pos_of_mem hmem
    simp only [addToVectorDB, hget, hadd]
    rw [if_pos hpos]
  · intro hne
    have hnil : store.filter (fun r => r.id = uniqueId url chunkIndex) = [] := by
      cases hfe : store.filter (fun r => r.id = uniqueId url chunkIndex) with
      | nil => rfl
      | cons r rest =>
        exfalso
        apply hne
        have hmem : r ∈ store.filter (fun r => r.id = uniqueId url chunkIndex) := by
          rw [hfe]
          exact List.mem_cons_self r rest
        rw [List.mem_filter] at hmem
        exact ⟨r, hmem.1, by simpa using hmem.2⟩
    constructor
    · simp only [addToVectorDB, hget, hadd]
      rw [if_neg (by rw [hnil]; simp)]
    · rw [List.filter_append, hnil]
      simp

theorem claim_C2_witness :
    addToVectorDB demoCollab [demoRec] [1] demoUrl (("b").toList) none 0 =
      .ok ([demoRec], false) ∧
    addToVectorDB demoCollab [] [1] demoUrl (("b").toList) none 0 =
      .ok ([({ id := uniqueId demoUrl 0, embedding := [1], url := demoUrl,
               body := ("b").toList, head := none, chunkIndex := 0 } : IndexedRecord)],
           true) :=
  ⟨(claim_C2_upsert_dedup demoCollab [demoRec] [1] demoUrl (("b").toList) none 0
      rfl rfl).1 ⟨demoRec, List.mem_singleton.mpr rfl, rfl⟩,
   (((claim_C2_upsert_dedup demoCollab [] [1] demoUrl (("b").toList) none 0
      rfl rfl).2 (by rintro ⟨r, hr, _⟩; cases hr)).1 : _)⟩

/-! ## Claims about the purge and the ingestion orchestrator -/

/-- When the store operations do not throw, the purge returns exactly the
records whose id does *not* have `url` as a literal string prefix, in
their original order — i.e. it deletes exactly the url-prefixed records
and leaves every other record unchanged. -/
theorem deleteEmbeddingsForUrl_eq (c : Collab) (store : Store) (url : List Char)
    (hget : c.storeGetErr = none) (hdel : c.storeDeleteErr = none) :
    deleteEmbeddingsForUrl c store url =
      .ok (store.filter (fun r => !(url.isPrefixOf r.id))) := by
  simp only [deleteEmbeddingsForUrl, hget]
  by_cases hpos :
      0 < ((store.map (fun r => r.id)).filter (fun i => url.isPrefixOf i)).length
  · rw [if_pos hpos]
    simp only [hdel]
    congr 1
    apply List.filter_congr
    intro r hr
    congr 1
    cases hpre : url.isPrefixOf r.id with
    | true =>
      apply List.elem_eq_true_of_mem
      exact List.mem_filter.mpr ⟨List.mem_map_of_mem _ hr, hpre⟩
    | false =>
      cases hc : ((store.map (fun r => r.id)).filter (fun i => url.isPrefixOf i)).contains r.id with
      | true =>
        exfalso
        have hmem := List.mem_of_elem_eq_true hc
        rw [List.mem_filter] at hmem
        rw [hmem.2] at hpre
        exact Bool.noConfusion hpre
      | false => rfl
  · rw [if_neg hpos]
    have hemp : (store.map (fun r => r.id)).filter (fun i => url.isPrefixOf i) = [] := by
      cases hfe : (store.map (fun r => r.id)).filter (fun i => url.isPrefixOf i) with
      | nil => rfl
      | cons x xs =>
        exfalso
        apply hpos
        rw [hfe]
        simp
    congr 1
    symm
    apply List.filter_eq_self.mpr
    intro r hr
    cases hpre : url.isPrefixOf r.id with
    | true =>
      exfalso
      have hmem : r.id ∈ (store.map (fun r => r.id)).filter (fun i => url.isPrefixOf i) :=
        List.mem_filter.mpr ⟨List.mem_map_of_mem _ hr, hpre⟩
      rw [hemp] at hmem
      cases hmem
    | false => rfl

/-- The per-chunk loop only ever appends to the event trace it is given:
whatever happens (success or a throw at some chunk), the final trace
extends the initial one. -/
theorem ingestChunks_events (c : Collab) (url : List Char) (head : Option (List Char)) :
    ∀ (chunks : List (List Char)) (store : Store) (ev : List Event) (i : Nat),
      (∃ s rest, ingestChunks c url head store ev chunks i = .ok (s, ev ++ rest)) ∨
      (∃ e s rest, ingestChunks c url head store ev chunks i = .error (e, s, ev ++ rest)) := by
  intro chunks
  induction chunks with
  | nil =>
    intro store ev i
    left
    exact ⟨store, [], by simp [ingestChunks]⟩
  | cons chunk rest ih =>
    intro store ev i
    cases hembr : c.embed chunk with
    | error e =>
      right
      exact ⟨e, store, [], by simp [ingestChunks, hembr]⟩
    | ok emb =>
      cases haddr : addToVectorDB c store emb url chunk head i with
      | error p =>
        obtain ⟨e, s⟩ := p
        right
        exact ⟨e, s, [], by simp [ingestChunks, hembr, haddr]⟩
      | ok p =>
        obtain ⟨s, b⟩ := p
        have hred : ingestChunks c url head store ev (chunk :: rest) i =
            ingestChunks c url head s (ev ++ [Event.upsert (uniqueId url i)]) rest (i + 1) := by
          simp [ingestChunks, hembr, haddr]
        rw [hred]
        rcases ih s (ev ++ [Event.upsert (uniqueId url i)]) (i + 1) with
          ⟨s₂, r₂, hr⟩ | ⟨e, s₂, r₂, hr⟩
        · left
          exact ⟨s₂, [Event.upsert (uniqueId url i)] ++ r₂, by
            rw [← List.append_assoc]
            exact hr⟩
        · right
          exact ⟨e, s₂, [Event.upsert (uniqueId url i)] ++ r₂, by
            rw [← List.append_assoc]
            exact hr⟩

/-- C4: when the store operations do not throw, the purge step of `ingest`
(`deleteEmbeddingsForUrl`) deletes exactly the records whose id has `url`
as a literal string prefix, leaving every other record unchanged and in
order; and `ingest` performs the purge before the fetch: its event trace
always begins with the purge event followed by the fetch attempt. -/
theorem claim_C4_purge_exact_and_first (c : Collab) (store : Store) (url : List Char)
    (hget : c.storeGetErr = none) (hdel : c.storeDeleteErr = none) :
    deleteEmbeddingsForUrl c store url =
      .ok (store.filter (fun r => !(url.isPrefixOf r.id))) ∧
    ∃ s rest, ingest c store url = .ok (s, Event.purge url :: Event.fetch url :: rest) := by
  refine ⟨deleteEmbeddingsForUrl_eq c store url hget hdel, ?_⟩
  cases hscrape : c.scrape url with
  | error e =>
    exact ⟨store.filter (fun r => !(url.isPrefixOf r.id)), [Event.errorLog], by
      simp [ingest, ingestBody, deleteEmbeddingsForUrl_eq c store url hget hdel, hscrape]⟩
  | ok sr =>
    by_cases hbody : sr.body = none ∨ sr.body = some []
    · exact ⟨store.filter (fun r => !(url.isPrefixOf r.id)),
        [Event.emptyBody url, Event.success url], by
        simp [ingest, ingestBody, deleteEmbeddingsForUrl_eq c store url hget hdel,
          hscrape, if_pos hbody]⟩
    · have hchunks : splitIntoChunks (sr.body.getD []) 100 =
          .ok (chunksOf (natCeilDiv (sr.body.getD []).length 100)
            (sr.body.getD [])) := by
        simp only [splitIntoChunks]
        rw [if_neg (by omega)]
        rfl
      rcases ingestChunks_events c url sr.metaData
          (chunksOf (natCeilDiv (sr.body.getD []).length 100)
            (sr.body.getD []))
          (store.filter (fun r => !(url.isPrefixOf r.id)))
          [Event.purge url, Event.fetch url] 0 with ⟨s, rest, hr⟩ | ⟨e, s, rest, hr⟩
      · exact ⟨s, rest ++ [Event.success url], by
          simp [ingest, ingestBody, deleteEmbeddingsForUrl_eq c store url hget hdel,
            hscrape, if_neg hbody, hchunks, hr]⟩
      · exact ⟨s, rest ++ [Event.errorLog], by
          simp [ingest, ingestBody, deleteEmbeddingsForUrl_eq c store url hget hdel,
            hscrape, if_neg hbody, hchunks, hr]⟩

theorem claim_C4_witness :
    deleteEmbeddingsForUrl demoCollab [demoRec, demoRecOther] demoUrl =
      .ok ([demoRec, demoRecOther].filter (fun r => !(demoUrl.isPrefixOf r.id))) ∧
    ∃ s rest, ingest demoCollab [demoRec, demoRecOther] demoUrl =
      .ok (s, Event.purge demoUrl :: Event.fetch demoUrl :: rest) :=
  claim_C4_purge_exact_and_first demoCollab [demoRec, demoRecOther] demoUrl rfl rfl

/-- C5: for every behaviour of the collaborators (fetch, embedding, store
operations) and every starting store, `ingest(url)` returns normally: the
`try/catch` at its boundary turns every thrown error into a logged return,
so no exception escapes the call. -/
theorem claim_C5_ingest_never_raises (c : Collab) (store : Store) (url : List Char) :
    ∃ r, ingest c store url = .ok r := by
  unfold ingest
  cases hb : ingestBody c store url with
  | ok p =>
    obtain ⟨s, ev⟩ := p
    exact ⟨(s, ev ++ [Event.success url]), rfl⟩
  | error p =>
    obtain ⟨e, s, ev⟩ := p
    exact ⟨(s, ev ++ [Event.errorLog]), rfl⟩

/-- C9: when the store operations do not throw, but the fetch fails or the
fetched body is empty/absent, `ingest` still leaves the store purged of
every record whose id has `url` as a prefix: the purge precedes the fetch,
so the EmptyBody early exit (and the caught fetch failure) do not undo it. -/
theorem claim_C9_purge_survives_empty_body (c : Collab) (store : Store) (url : List Char)
    (hget : c.storeGetErr = none) (hdel : c.storeDeleteErr = none) :
    (∀ e, c.scrape url = .error e →
      ingest c store url =
        .ok (store.filter (fun r => !(url.isPrefixOf r.id)),
             [Event.purge url, Event.fetch url, Event.errorLog])) ∧
    (∀ sr, c.scrape url = .ok sr → (sr.body = none ∨ sr.body = some []) →
      ingest c store url =
        .ok (store.filter (fun r => !(url.isPrefixOf r.id)),
             [Event.purge url, Event.fetch url, Event.emptyBody url,
              Event.success url])) := by
  constructor
  · intro e hscrape
    simp [ingest, ingestBody, deleteEmbeddingsForUrl_eq c store url hget hdel, hscrape]
  · intro sr hscrape hbody
    simp [ingest, ingestBody, deleteEmbeddingsForUrl_eq c store url hget hdel, hscrape,
      if_pos hbody]

theorem claim_C9_witness :
    ingest demoCollab [demoRec, demoRecOther] demoUrl =
      .ok ([demoRec, demoRecOther].filter (fun r => !(demoUrl.isPrefixOf r.id)),
           [Event.purge demoUrl, Event.fetch demoUrl, Event.errorLog]) :=
  (claim_C9_purge_survives_empty_body demoCollab [demoRec, demoRecOther] demoUrl
    rfl rfl).1 .fetchFailed rfl

/-! ## Claims about the retrieval orchestrator -/

/-- On a list of present (string) fields the filter never throws and keeps
exactly the elements whose trimmed value is non-empty (the `!!e` conjunct
is subsumed: a string with non-empty trim is non-empty). -/
theorem chatFilter_some (l : List (List Char)) :
    chatFilter (l.map some) =
      .ok (l.filter (fun s => !(jsTrim s).isEmpty && !s.isEmpty)) := by
  induction l with
  | nil => rfl
  | cons s rest ih =>
    simp only [List.map_cons, chatFilter, ih, List.filter_cons]
    by_cases h1 : jsTrim s = []
    · simp [h1]
    · by_cases h2 : s = []
      · exfalso
        apply h1
        rw [h2]
        rfl
      · simp [h1, h2]

/-- On all-string query metadata, `chat`'s two filters succeed and are
keyed independently: the body list keeps the bodies whose own trim is
non-empty, the url list keeps the urls whose own trim is non-empty. -/
theorem chatContext_strings (ms : List (List Char × List Char)) :
    chatContext (ms.map (fun p => ⟨some p.1, some p.2⟩)) =
      .ok ((ms.map (fun p => p.1)).filter (fun b => !(jsTrim b).isEmpty && !b.isEmpty),
           (ms.map (fun p => p.2)).filter (fun u => !(jsTrim u).isEmpty && !u.isEmpty)) := by
  have hb : (ms.map (fun p => (⟨some p.1, some p.2⟩ : QueryMeta))).map (fun e => e.body)
      = (ms.map (fun p => p.1)).map some := by
    rw [List.map_map, List.map_map]
    rfl
  have hu : (ms.map (fun p => (⟨some p.1, some p.2⟩ : QueryMeta))).map (fun e => e.url)
      = (ms.map (fun p => p.2)).map some := by
    rw [List.map_map, List.map_map]
    rfl
  simp only [chatContext, hb, hu, chatFilter_some]

/-- C6 as stated is false at a concrete input: on a single retrieved
record whose body is whitespace-only but whose url is non-empty, the code
drops the body yet keeps the url — the url list is `[url]` while the url
list of the body-retained records (the spec's words, `chatUrlsSpec`) is
empty.  Body and url filtering are not keyed on the same per-record
condition. -/
theorem claim_C6_counterexample :
    chatContext [⟨some (("   ").toList), some demoUrl⟩] = .ok ([], [demoUrl]) ∧
    chatUrlsSpec [((("   ").toList), demoUrl)] = [] ∧
    ([demoUrl] : List (List Char)) ≠ [] :=
  ⟨by rfl, by rfl, by decide⟩

/-- C6 amended: `chat` filters the body list on each record's *body*
(dropping empty or whitespace-only bodies) and, independently, filters the
url list on each record's *url* (dropping empty or whitespace-only urls);
the url placed in the message is therefore not dropped when the same
record's body is. -/
theorem claim_C6_amended (ms : List (List Char × List Char)) :
    chatContext (ms.map (fun p => ⟨some p.1, some p.2⟩)) =
      .ok ((ms.map (fun p => p.1)).filter (fun b => !(jsTrim b).isEmpty && !b.isEmpty),
           (ms.map (fun p => p.2)).filter (fun u => !(jsTrim u).isEmpty && !u.isEmpty)) :=
  chatContext_strings ms

/-- C10: the filter predicate evaluates `e.trim()` before the `!!e`
existence check, so the filtering is total exactly on all-string fields:
on string-only metadata both filters return normally, while a single
record with a `null`/`undefined` body (or url) makes `chat` throw a
`TypeError` instead of filtering that record out. -/
theorem claim_C10_trim_typeError :
    (∀ ms : List (List Char × List Char),
      ∃ r, chatContext (ms.map (fun p => ⟨some p.1, some p.2⟩)) = .ok r) ∧
    chatContext [⟨none, some demoUrl⟩] = .error .typeError ∧
    chatContext [⟨some (("body").toList), none⟩] = .error .typeError :=
  ⟨fun ms => ⟨_, chatContext_strings ms⟩, by rfl, by rfl⟩

end PageMind
